import Mathlib

/-!
# Verification of the Aariba rule-language interpreter

Shallow embedding of the GreenPix/Aariba interpreter (a small DSL of
arithmetic expressions, assignments and conditional blocks evaluated
against a global store and a stack of local scopes).

The repository contains two iterations of the expression pipeline:

* the older one: `src/expressions.rs` (tagged `I64`/`F32` values, binary-only
  operators) together with `src/parser.rs`;
* the newer one: `src/parser/ast.rs`, `src/parser/mod.rs`,
  `src/parser/expressions.rs`, `src/conditions.rs` and `src/rules.rs`, whose
  `f64`-valued postfix-evaluator module is not present in the sources (only
  its callers are); where needed, that part is modelled from the spec and
  marked as such.

Rust `f32`/`f64` payloads are embedded as Lean `Float`; no theorem below
depends on floating-point arithmetic facts.
-/

namespace Aariba

/-! ## Shared error type (src/expressions.rs, lines 157-161) -/

/-- `ExpressionError` from src/expressions.rs: `VariableNotFound(String)`
or `InvalidExpression(String)`. -/
inductive ExpressionError where
  | variableNotFound (name : String)
  | invalidExpression (msg : String)
  deriving Repr, DecidableEq

/-! ## Old expression pipeline (src/expressions.rs) -/

namespace Exprs

/-- `ValueType` from src/expressions.rs lines 23-27: a tagged `I64`/`F32`
numeric value.  The Rust `f32` payload is embedded as Lean `Float`. -/
inductive ValueType where
  | i64 (a : Int)
  | f32 (a : Float)

/-- `Operator` from src/expressions.rs lines 143-150 (all binary). -/
inductive Operator where
  | plus
  | minus
  | multiply
  | divide
  | pow
  deriving Repr, DecidableEq

/-- `ExpressionMember` from src/expressions.rs lines 133-141: one postfix
instruction.  The Rust field `local` is spelled `loc` (`local` is a Lean
keyword). -/
inductive ExpressionMember where
  | op (o : Operator)
  | constant (v : ValueType)
  | var (loc : Bool) (name : String)

/-- `impl Add for ValueType`, src/expressions.rs lines 29-39. -/
def ValueType.add : ValueType → ValueType → ValueType
  | .i64 a, .i64 b => .i64 (a + b)
  | .i64 a, .f32 b => .f32 (Float.ofInt a + b)
  | .f32 a, .i64 b => .f32 (a + Float.ofInt b)
  | .f32 a, .f32 b => .f32 (a + b)

/-- `impl Sub for ValueType`, src/expressions.rs lines 41-51. -/
def ValueType.sub : ValueType → ValueType → ValueType
  | .i64 a, .i64 b => .i64 (a - b)
  | .i64 a, .f32 b => .f32 (Float.ofInt a - b)
  | .f32 a, .i64 b => .f32 (a - Float.ofInt b)
  | .f32 a, .f32 b => .f32 (a - b)

/-- `impl Mul for ValueType`, src/expressions.rs lines 53-63. -/
def ValueType.mul : ValueType → ValueType → ValueType
  | .i64 a, .i64 b => .i64 (a * b)
  | .i64 a, .f32 b => .f32 (Float.ofInt a * b)
  | .f32 a, .i64 b => .f32 (a * Float.ofInt b)
  | .f32 a, .f32 b => .f32 (a * b)

/-- `impl Div for ValueType`, src/expressions.rs lines 65-75.  Rust `i64`
division truncates toward zero, which is `Int.tdiv`, and panics — in every
build mode — on division by zero and on the overflowing `i64::MIN / -1`;
both panic paths are modelled as `none`.  Float division never panics.
(The `+`, `-`, `*` and integer `pow` overflow checks, by contrast, exist
only in debug builds; those operations are embedded as exact `Int`
arithmetic.) -/
def ValueType.div : ValueType → ValueType → Option ValueType
  | .i64 a, .i64 b =>
    if b = 0 then none
    else if a = -9223372036854775808 ∧ b = -1 then none
    else some (.i64 (Int.tdiv a b))
  | .i64 a, .f32 b => some (.f32 (Float.ofInt a / b))
  | .f32 a, .i64 b => some (.f32 (a / Float.ofInt b))
  | .f32 a, .f32 b => some (.f32 (a / b))

/-- The `b_as_u32` computation of `ValueType::pow` in the `(I64, I64)` case,
src/expressions.rs lines 95-104: negative exponents are turned into `0`,
exponents above `u32::MAX` into `u32::MAX`. -/
def powExponentU32 (b : Int) : Int :=
  if b < 0 then 0
  else if b > 4294967295 then 4294967295
  else b

/-- The `b_as_i32` computation of `ValueType::pow` in the `(F32, I64)` case,
src/expressions.rs lines 109-118: exponents below `i32::MIN` are turned into
`0`, exponents above `i32::MAX` into `i32::MAX`. -/
def powExponentI32 (b : Int) : Int :=
  if b < -2147483648 then 0
  else if b > 2147483647 then 2147483647
  else b

/-- `ValueType::pow`, src/expressions.rs lines 92-123.  `f32::powf`/`powi`
are both embedded as `Float.pow`. -/
def ValueType.pow : ValueType → ValueType → ValueType
  | .i64 a, .i64 b => .i64 (a ^ (powExponentU32 b).toNat)
  | .i64 a, .f32 b => .f32 (Float.pow (Float.ofInt a) b)
  | .f32 a, .i64 b => .f32 (Float.pow a (Float.ofInt (powExponentI32 b)))
  | .f32 a, .f32 b => .f32 (Float.pow a b)

/-- The operator dispatch of `ExpressionEvaluator::evaluate`,
src/expressions.rs lines 184-190: `member1 op member2`; division may
panic (`none`), the other operators always produce a value. -/
def applyOp : Operator → ValueType → ValueType → Option ValueType
  | .plus, m1, m2 => some (m1.add m2)
  | .minus, m1, m2 => some (m1.sub m2)
  | .multiply, m1, m2 => some (m1.mul m2)
  | .divide, m1, m2 => m1.div m2
  | .pow, m1, m2 => some (m1.pow m2)

/-- `derive(Debug)` rendering of `Operator`, used in the
`InvalidExpression` messages built with `format!`. -/
def opDebug : Operator → String
  | .plus => "Plus"
  | .minus => "Minus"
  | .multiply => "Multiply"
  | .divide => "Divide"
  | .pow => "Pow"

/-- A `Gettable` store (src/expressions.rs lines 7-21) embedded as its
`get_var` function.  `HashMap<String,ValueType>` instantiates it with an
association-list lookup; `()` instantiates it with `fun _ => none`. -/
def Getter := String → Option ValueType

/-- The main loop of `ExpressionEvaluator::evaluate`, src/expressions.rs
lines 168-194, processing the member list against an operand stack
(head of the Lean list = top of the Rust `Vec` stack).  The outer `Option`
models a panic of the applied operator (i64 division by zero or
`i64::MIN / -1`). -/
def evalMembers (g l : Getter) :
    List ExpressionMember → List ValueType →
    Option (Except ExpressionError (List ValueType))
  | [], st => some (.ok st)
  | .constant v :: rest, st => evalMembers g l rest (v :: st)
  | .var loc name :: rest, st =>
    match (if loc then l name else g name) with
    | some v => evalMembers g l rest (v :: st)
    | none => some (.error (.variableNotFound name))
  | .op o :: rest, st =>
    match st with
    | m2 :: m1 :: st' =>
      match applyOp o m1 m2 with
      | none => none
      | some r => evalMembers g l rest (r :: st')
    | _ => some (.error (.invalidExpression ("Missing member for operator " ++ opDebug o)))

/-- `ExpressionEvaluator::evaluate`, src/expressions.rs lines 165-200:
run the postfix program on an empty stack, then demand exactly one
remaining value; a panic in the member loop propagates. -/
def evaluate (p : List ExpressionMember) (g l : Getter) :
    Option (Except ExpressionError ValueType) :=
  match evalMembers g l p [] with
  | none => none
  | some (.error e) => some (.error e)
  | some (.ok []) =>
    some (.error (.invalidExpression "No result at the end of the expression"))
  | some (.ok (r :: rest)) =>
    match rest with
    | [] => some (.ok r)
    | _ => some (.error (.invalidExpression "Stack not empty at the end of the expression"))

/-- Stack-effect simulation of a postfix program: starting from a stack of
depth `n`, `stackCountAux p n` is the resulting depth, or `none` if some
operator finds fewer than two operands. -/
def stackCountAux : List ExpressionMember → Nat → Option Nat
  | [], n => some n
  | .op _ :: rest, n =>
    match n with
    | m + 2 => stackCountAux rest (m + 1)
    | _ => none
  | .constant _ :: rest, n => stackCountAux rest (n + 1)
  | .var _ _ :: rest, n => stackCountAux rest (n + 1)

/-- A member is resolvable when it is not a variable reference, or when the
store selected by its `local` flag binds its name. -/
def resolvable (g l : Getter) : ExpressionMember → Bool
  | .var loc name => (if loc then l name else g name).isSome
  | _ => true

theorem evalMembers_append (g l : Getter) (xs ys : List ExpressionMember)
    (st : List ValueType) :
    evalMembers g l (xs ++ ys) st =
      match evalMembers g l xs st with
      | none => none
      | some (.ok st') => evalMembers g l ys st'
      | some (.error e) => some (.error e) := by
  induction xs generalizing st with
  | nil => simp [evalMembers]
  | cons m rest ih =>
    cases m with
    | constant v => simpa [evalMembers] using ih (v :: st)
    | var loc name =>
      simp only [List.cons_append, evalMembers]
      cases hv : (if loc then l name else g name) with
      | some v => simpa using ih (v :: st)
      | none => rfl
    | op o =>
      cases st with
      | nil => rfl
      | cons m2 t =>
        cases t with
        | nil => rfl
        | cons m1 st' =>
          cases hop : applyOp o m1 m2 with
          | none =>
            have h1 : evalMembers g l ((ExpressionMember.op o :: rest) ++ ys)
                (m2 :: m1 :: st') = none := by
              rw [List.cons_append, evalMembers, hop]
            have h2 : evalMembers g l (ExpressionMember.op o :: rest)
                (m2 :: m1 :: st') = none := by
              rw [evalMembers, hop]
            rw [h1, h2]
          | some r =>
            have h1 : evalMembers g l ((ExpressionMember.op o :: rest) ++ ys)
                (m2 :: m1 :: st') = evalMembers g l (rest ++ ys) (r :: st') := by
              rw [List.cons_append, evalMembers, hop]
            have h2 : evalMembers g l (ExpressionMember.op o :: rest)
                (m2 :: m1 :: st') = evalMembers g l rest (r :: st') := by
              rw [evalMembers, hop]
            rw [h1, h2]
            exact ih (r :: st')

/-- Running a fully resolvable postfix program from a stack of depth `n`
either panics, or succeeds with final depth `stackCountAux p n`, or — when
the simulation fails — fails with `InvalidExpression` unless a panic
preempts it. -/
theorem evalMembers_count (g l : Getter) :
    ∀ (p : List ExpressionMember) (st : List ValueType),
      p.all (resolvable g l) = true →
      evalMembers g l p st = none ∨
      (∃ n st', stackCountAux p st.length = some n ∧
        evalMembers g l p st = some (.ok st') ∧ st'.length = n) ∨
      (stackCountAux p st.length = none ∧
        ∃ s, evalMembers g l p st = some (.error (.invalidExpression s))) := by
  intro p
  induction p with
  | nil =>
    intro st _
    exact .inr (.inl ⟨st.length, st, rfl, rfl, rfl⟩)
  | cons m rest ih =>
    intro st hall
    simp only [List.all_cons, Bool.and_eq_true] at hall
    cases m with
    | constant v =>
      exact ih (v :: st) hall.2
    | var loc name =>
      have hv : (if loc then l name else g name).isSome := by
        simpa [resolvable] using hall.1
      cases hsome : (if loc then l name else g name) with
      | none => rw [hsome] at hv; simp at hv
      | some v =>
        have h := ih (v :: st) hall.2
        have he : evalMembers g l (.var loc name :: rest) st =
            evalMembers g l rest (v :: st) := by
          rw [evalMembers, hsome]
        rw [he]
        exact h
    | op o =>
      cases st with
      | nil =>
        exact .inr (.inr ⟨rfl, "Missing member for operator " ++ opDebug o, rfl⟩)
      | cons m2 t =>
        cases t with
        | nil =>
          exact .inr (.inr ⟨rfl, "Missing member for operator " ++ opDebug o, rfl⟩)
        | cons m1 st' =>
          cases hop : applyOp o m1 m2 with
          | none =>
            refine .inl ?_
            rw [evalMembers, hop]
          | some r =>
            have h := ih (r :: st') hall.2
            have he : evalMembers g l (.op o :: rest) (m2 :: m1 :: st') =
                evalMembers g l rest (r :: st') := by
              rw [evalMembers, hop]
            rw [he]
            exact h

/-- A successful run of the member loop always matches the stack-effect
simulation, with no hypothesis on the stores. -/
theorem evalMembers_ok_count (g l : Getter) :
    ∀ (p : List ExpressionMember) (st st' : List ValueType),
      evalMembers g l p st = some (.ok st') →
      stackCountAux p st.length = some st'.length := by
  intro p
  induction p with
  | nil =>
    intro st st' h
    rw [evalMembers] at h
    injection h with h
    injection h with h
    rw [h]
    rfl
  | cons m rest ih =>
    intro st st' h
    cases m with
    | constant v =>
      rw [evalMembers] at h
      exact ih (v :: st) st' h
    | var loc name =>
      rw [evalMembers] at h
      cases hv : (if loc then l name else g name) with
      | none => rw [hv] at h; cases h
      | some v =>
        rw [hv] at h
        exact ih (v :: st) st' h
    | op o =>
      cases st with
      | nil => cases h
      | cons m2 t =>
        cases t with
        | nil => cases h
        | cons m1 st'' =>
          rw [evalMembers] at h
          cases hop : applyOp o m1 m2 with
          | none => rw [hop] at h; cases h
          | some r =>
            rw [hop] at h
            exact ih (r :: st'') st' h

/-- C2 counterexample: the well-formed, fully resolvable postfix program
`1 0 /` (net stack effect one, no operator underflow) does not return
`Ok` — the i64 division by zero panics, which every Rust build mode
raises unconditionally — refuting "returns Ok exactly when the program is
well-formed". -/
theorem c2_wellformed_panic_counterexample :
    stackCountAux [ExpressionMember.constant (.i64 1), .constant (.i64 0),
      .op .divide] 0 = some 1 ∧
    ([ExpressionMember.constant (.i64 1), .constant (.i64 0),
      .op .divide].all (resolvable (fun _ => none) (fun _ => none)) = true) ∧
    evaluate [ExpressionMember.constant (.i64 1), .constant (.i64 0),
      .op .divide] (fun _ => none) (fun _ => none) = none :=
  ⟨by decide, rfl, rfl⟩

/-- C2 (amended): with every variable reference resolvable, a well-formed
postfix program (net stack effect one, no operator underflow) either
panics in an arithmetic step (i64 division by zero or `i64::MIN / -1` —
the only always-panicking operators) or returns `Ok`; a non-well-formed
program either panics or fails with `InvalidExpression`; and
unconditionally, an `Ok` result is only ever produced on a well-formed
program. -/
theorem c2_evaluate_ok_iff_wellformed (p : List ExpressionMember) (g l : Getter) :
    (p.all (resolvable g l) = true →
      (stackCountAux p 0 = some 1 →
        evaluate p g l = none ∨ ∃ v, evaluate p g l = some (.ok v)) ∧
      (stackCountAux p 0 ≠ some 1 →
        evaluate p g l = none ∨
          ∃ s, evaluate p g l = some (.error (.invalidExpression s)))) ∧
    (∀ v, evaluate p g l = some (.ok v) → stackCountAux p 0 = some 1) := by
  constructor
  case right =>
    intro v hv
    rw [evaluate] at hv
    cases hok : evalMembers g l p [] with
    | none => rw [hok] at hv; cases hv
    | some r =>
      cases r with
      | error e => rw [hok] at hv; cases hv
      | ok st' =>
        rw [hok] at hv
        cases st' with
        | nil => cases hv
        | cons r rest =>
          cases rest with
          | nil => simpa using evalMembers_ok_count g l p [] [r] hok
          | cons w t => cases hv
  intro hres
  have h := evalMembers_count g l p [] hres
  constructor
  · intro hwf
    rcases h with hpanic | ⟨n, st', hsc, hok, hlen⟩ | ⟨hnone, s, herr⟩
    · exact .inl (by rw [evaluate, hpanic])
    · have hn := hsc.symm.trans hwf
      injection hn with hn
      subst hn
      cases st' with
      | nil => simp at hlen
      | cons v rest =>
        cases rest with
        | nil => exact .inr ⟨v, by rw [evaluate, hok]⟩
        | cons w t => simp at hlen
    · have hx := hnone.symm.trans hwf
      cases hx
  · intro hnwf
    rcases h with hpanic | ⟨n, st', hsc, hok, hlen⟩ | ⟨hnone, s, herr⟩
    · exact .inl (by rw [evaluate, hpanic])
    · cases st' with
      | nil =>
        exact .inr ⟨"No result at the end of the expression",
          by rw [evaluate, hok]⟩
      | cons v rest =>
        cases rest with
        | nil =>
          have hn : n = 1 := by simpa using hlen.symm
          subst hn
          exact absurd hsc hnwf
        | cons w t =>
          exact .inr ⟨"Stack not empty at the end of the expression",
            by rw [evaluate, hok]⟩
    · exact .inr ⟨s, by rw [evaluate, herr]⟩

/-- Witness for C2 at the repository's own test program `1 2 +`
(src/expressions.rs `evaluate_int`): well-formed, division-free, and
indeed returns `Ok`; applying the theorem both ways. -/
theorem c2_evaluate_ok_iff_wellformed_witness :
    ([ExpressionMember.constant (.i64 1), .constant (.i64 2),
      .op .plus].all (resolvable (fun _ => none) (fun _ => none)) = true) ∧
    (evaluate [ExpressionMember.constant (.i64 1), .constant (.i64 2),
        .op .plus] (fun _ => none) (fun _ => none) = none ∨
      ∃ v, evaluate [ExpressionMember.constant (.i64 1), .constant (.i64 2),
        .op .plus] (fun _ => none) (fun _ => none) = some (.ok v)) ∧
    stackCountAux [ExpressionMember.constant (.i64 1), .constant (.i64 2),
      .op .plus] 0 = some 1 :=
  ⟨rfl,
   ((c2_evaluate_ok_iff_wellformed
     [ExpressionMember.constant (.i64 1), .constant (.i64 2), .op .plus]
     (fun _ => none) (fun _ => none)).1 rfl).1 rfl,
   (c2_evaluate_ok_iff_wellformed
     [ExpressionMember.constant (.i64 1), .constant (.i64 2), .op .plus]
     (fun _ => none) (fun _ => none)).2 (.i64 3) rfl⟩

/-- C6: during evaluation, a variable member is resolved against the local
store when its `local` flag is true and against the global store otherwise;
when the chosen store lacks the name the whole evaluation fails with
`VariableNotFound` carrying that name, and when it binds the name the value
is pushed onto the stack. -/
theorem c6_variable_store_selection (g l : Getter) (loc : Bool) (name : String)
    (pre post : List ExpressionMember) (st : List ValueType)
    (hpre : evalMembers g l pre [] = some (.ok st)) :
    ((if loc then l name else g name) = none →
      evaluate (pre ++ .var loc name :: post) g l =
        some (.error (.variableNotFound name))) ∧
    (∀ v, (if loc then l name else g name) = some v →
      evalMembers g l (pre ++ [.var loc name]) [] = some (.ok (v :: st))) := by
  constructor
  · intro hnone
    have h1 : evalMembers g l (pre ++ ExpressionMember.var loc name :: post) [] =
        some (.error (.variableNotFound name)) := by
      rw [evalMembers_append, hpre]
      simp [evalMembers, hnone]
    simp [evaluate, h1]
  · intro v hv
    rw [evalMembers_append, hpre]
    simp [evalMembers, hv]

/-- Witness for C6: the spec's example, evaluating `$undefined + 1` against
an empty global store fails with `VariableNotFound("undefined")`. -/
theorem c6_variable_store_selection_witness :
    evaluate [ExpressionMember.var false "undefined", .constant (.i64 1),
      .op .plus] (fun _ => none) (fun _ => none) =
      some (.error (.variableNotFound "undefined")) :=
  (c6_variable_store_selection (fun _ => none) (fun _ => none) false "undefined"
    [] [.constant (.i64 1), .op .plus] [] rfl).1 rfl

/-- C7 counterexample: for a float base, an exponent below `i32::MIN` is
replaced by `0`, not clamped to the bottom of the representable range
(`-2147483648`): the claim's "clamped to the representable range" fails at
`b = -4294967296`. -/
theorem c7_pow_clamp_counterexample :
    ValueType.pow (.f32 2.0) (.i64 (-4294967296)) =
      .f32 (Float.pow 2.0 (Float.ofInt 0)) ∧
    powExponentI32 (-4294967296) = 0 ∧
    max (-2147483648 : Int) (min (-4294967296) 2147483647) = -2147483648 ∧
    (0 : Int) ≠ -2147483648 :=
  ⟨rfl, by decide, by decide, by decide⟩

/-- C7 (amended): integer-integer `pow` clamps the exponent to the
representable `u32` range `[0, u32::MAX]` before computing the power; a
float base with an `i64` exponent gets exponents above `i32::MAX` clamped to
`i32::MAX`, but exponents below `i32::MIN` are replaced by `0`; in both
cases the computed exponent always lies in the representable range. -/
theorem c7_pow_exponent_in_range (a b : Int) :
    ValueType.pow (.i64 a) (.i64 b) =
      .i64 (a ^ (max 0 (min b 4294967295)).toNat) ∧
    powExponentU32 b = max 0 (min b 4294967295) ∧
    powExponentI32 b = (if b < -2147483648 then 0 else min b 2147483647) ∧
    (0 ≤ powExponentU32 b ∧ powExponentU32 b ≤ 4294967295) ∧
    (-2147483648 ≤ powExponentI32 b ∧ powExponentI32 b ≤ 2147483647) := by
  have hu : powExponentU32 b = max 0 (min b 4294967295) := by
    rw [powExponentU32]
    split
    · omega
    · split <;> omega
  have hi : powExponentI32 b = (if b < -2147483648 then 0 else min b 2147483647) := by
    rw [powExponentI32]
    split
    · rfl
    · split <;> omega
  refine ⟨?_, hu, hi, ?_, ?_⟩
  · rw [ValueType.pow, hu]
  · rw [hu]; omega
  · rw [hi]; split <;> omega

end Exprs

/-! ## Parser expression helpers (src/parser/expressions.rs) -/

namespace PExpr

/-- `BinOp` from src/parser/expressions.rs lines 9-15. -/
inductive BinOp where
  | plus
  | minus
  | multiply
  | divide
  | pow
  deriving Repr, DecidableEq

/-- `FunctionKind` from src/parser/expressions.rs lines 41-48. -/
inductive FunctionKind where
  | sin
  | cos
  | rand
  | min
  | max
  deriving Repr, DecidableEq

/-- `Node` from src/parser/expressions.rs lines 62-78 (boxed children
flattened; the Rust field `local` is spelled `loc`). -/
inductive Node where
  | plus (l r : Node)
  | minus (l r : Node)
  | multiply (l r : Node)
  | divide (l r : Node)
  | pow (l r : Node)
  | function (f : FunctionKind) (operands : List Node)
  | f64 (n : Float)
  | var (loc : Bool) (name : String)

/-- The per-operator `match` in the body of `combine`,
src/parser/expressions.rs lines 20-36. -/
def applyBinOp : BinOp → Node → Node → Node
  | .plus, res, right => .plus res right
  | .minus, res, right => .minus res right
  | .multiply, res, right => .multiply res right
  | .divide, res, right => .divide res right
  | .pow, res, right => .pow res right

/-- `combine` from src/parser/expressions.rs lines 17-39: fold the list of
`(operator, operand)` pairs over the initial left node, exactly as the
Rust `for` loop over `right_vec` with the mutable accumulator `res`. -/
def combine (left : Node) (rightVec : List (BinOp × Node)) : Node :=
  rightVec.foldl (fun res p => applyBinOp p.1 res p.2) left

/-- C8: `combine` realises left-associativity: an empty pair list returns
the initial node unchanged, appending a final pair `(op, r)` wraps the
combination of everything before it as the left child of the new root, and
in particular `1 - 2 + 3` groups as `(1 - 2) + 3`. -/
theorem c8_combine_left_fold (left : Node) (pairs : List (BinOp × Node))
    (op : BinOp) (r : Node) :
    combine left [] = left ∧
    combine left (pairs ++ [(op, r)]) = applyBinOp op (combine left pairs) r ∧
    combine (.f64 1.0) [(.minus, .f64 2.0), (.plus, .f64 3.0)] =
      .plus (.minus (.f64 1.0) (.f64 2.0)) (.f64 3.0) := by
  refine ⟨rfl, ?_, rfl⟩
  simp [combine, List.foldl_append]

end PExpr

/-! ## AST of the newer parser (src/parser/ast.rs) -/

namespace Ast

/-- `Opcode` from src/parser/ast.rs lines 64-71. -/
inductive Opcode where
  | plus
  | minus
  | multiply
  | divide
  | pow
  deriving Repr, DecidableEq

/-- `Func` from src/parser/ast.rs lines 73-80. -/
inductive Func where
  | rand
  | min
  | max
  | sin
  | cos
  deriving Repr, DecidableEq

/-- `Sign` from src/parser/ast.rs lines 82-86. -/
inductive Sign where
  | plus
  | minus
  deriving Repr, DecidableEq

/-- `Expr` from src/parser/ast.rs lines 53-62 (boxed children flattened;
the Rust field `local` is spelled `loc`). -/
inductive Expr where
  | number (n : Float)
  | var (loc : Bool) (name : String)
  | function (f : Func) (args : List Expr)
  | op (l : Expr) (o : Opcode) (r : Expr)
  | signed (s : Sign) (e : Expr)

end Ast

/-! ## Newer postfix expression layer

The newer `expressions` module (f64-valued postfix members, binary/unary
operators, `Variable` struct) is referenced by src/parser/mod.rs,
src/conditions.rs and src/rules.rs but its defining file is not among the
sources; the types below carry the names used at those call sites and the
evaluator is modelled from the spec (§4.4). -/

namespace NewExpr

/-- Modelled from the spec: binary operator tags of the missing newer
`expressions` module (§3 "binary (add, subtract, multiply, divide, power,
min, max, random-in-range)"); the constructor names are those used by
src/parser/mod.rs lines 130-147. -/
inductive BinaryOperator where
  | plus
  | minus
  | multiply
  | divide
  | pow
  | min
  | max
  | rand
  deriving Repr, DecidableEq

/-- Modelled from the spec: unary operator tags of the missing newer
`expressions` module (§3 "unary (e.g. sine, cosine, arithmetic negation)");
constructor names from src/parser/mod.rs lines 59 and 142-143. -/
inductive UnaryOperator where
  | sin
  | cos
  | minus
  deriving Repr, DecidableEq

/-- Modelled from the spec: the `Operator` sum of the missing newer
`expressions` module, tagged unary or binary (§3), as used by
src/parser/mod.rs (`Operator::Binary(..)` / `Operator::Unary(..)`). -/
inductive Operator where
  | binary (b : BinaryOperator)
  | unary (u : UnaryOperator)
  deriving Repr, DecidableEq

/-- Modelled from the spec: `Variable { is_local: bool, name: string }`
(§3); the missing newer `expressions` module defines it and
src/parser/mod.rs builds it with `Variable::new(local, name)`.  The Rust
field `local` is spelled `loc`. -/
structure Variable where
  loc : Bool
  name : String
  deriving Repr, DecidableEq

/-- Modelled from the spec: `ExpressionMember` of the missing newer
`expressions` module (§3 "one of Constant(number), VariableRef(Variable),
Operator(op)"), with an `f64` constant payload embedded as `Float`. -/
inductive ExpressionMember where
  | op (o : Operator)
  | constant (v : Float)
  | var (v : Variable)

/-- Modelled from the spec: application of a binary operator (§4.4);
`rand` is embedded through the caller-supplied sampling function `rng`. -/
def applyBinary (rng : Float → Float → Float) :
    BinaryOperator → Float → Float → Float
  | .plus, a, b => a + b
  | .minus, a, b => a - b
  | .multiply, a, b => a * b
  | .divide, a, b => a / b
  | .pow, a, b => Float.pow a b
  | .min, a, b => if a < b then a else b
  | .max, a, b => if a < b then b else a
  | .rand, a, b => rng a b

/-- Modelled from the spec: application of a unary operator (§4.3, §4.4). -/
def applyUnary : UnaryOperator → Float → Float
  | .sin, a => Float.sin a
  | .cos, a => Float.cos a
  | .minus, a => -a

/-- Modelled from the spec (§4.4): the stack loop of the newer evaluator.
Constants and resolved variables are pushed; a binary operator pops the
right operand first and the left operand second (`member2` then `member1`)
and applies `member1 op member2`; a unary operator pops one operand;
underflow is `InvalidExpression`, an unbound variable `VariableNotFound`. -/
def evalMembers (rng : Float → Float → Float) (g l : String → Option Float) :
    List ExpressionMember → List Float → Except ExpressionError (List Float)
  | [], st => .ok st
  | .constant v :: rest, st => evalMembers rng g l rest (v :: st)
  | .var v :: rest, st =>
    match (if v.loc then l v.name else g v.name) with
    | some x => evalMembers rng g l rest (x :: st)
    | none => .error (.variableNotFound v.name)
  | .op (.binary b) :: rest, st =>
    match st with
    | m2 :: m1 :: st' => evalMembers rng g l rest (applyBinary rng b m1 m2 :: st')
    | _ => .error (.invalidExpression "Missing member for binary operator")
  | .op (.unary u) :: rest, st =>
    match st with
    | m :: st' => evalMembers rng g l rest (applyUnary u m :: st')
    | _ => .error (.invalidExpression "Missing member for unary operator")

/-- Modelled from the spec (§4.4): run the postfix program on an empty
stack and demand exactly one remaining value. -/
def evaluate (rng : Float → Float → Float) (p : List ExpressionMember)
    (g l : String → Option Float) : Except ExpressionError Float :=
  match evalMembers rng g l p [] with
  | .error e => .error e
  | .ok [] => .error (.invalidExpression "No result at the end of the expression")
  | .ok (r :: rest) =>
    match rest with
    | [] => .ok r
    | _ => .error (.invalidExpression "Stack not empty at the end of the expression")

theorem newEvalMembers_append (rng : Float → Float → Float)
    (g l : String → Option Float) (xs ys : List ExpressionMember)
    (st : List Float) :
    evalMembers rng g l (xs ++ ys) st =
      match evalMembers rng g l xs st with
      | .ok st' => evalMembers rng g l ys st'
      | .error e => .error e := by
  induction xs generalizing st with
  | nil => simp [evalMembers]
  | cons m rest ih =>
    cases m with
    | constant v => simpa [evalMembers] using ih (v :: st)
    | var v =>
      simp only [List.cons_append, evalMembers]
      cases hv : (if v.loc then l v.name else g v.name) with
      | some x => simpa using ih (x :: st)
      | none => rfl
    | op o =>
      cases o with
      | binary b =>
        simp only [List.cons_append, evalMembers]
        cases st with
        | nil => rfl
        | cons m2 t =>
          cases t with
          | nil => rfl
          | cons m1 st' => simpa using ih (applyBinary rng b m1 m2 :: st')
      | unary u =>
        simp only [List.cons_append, evalMembers]
        cases st with
        | nil => rfl
        | cons m t => simpa using ih (applyUnary u m :: t)

theorem evalMembers_append_ok (rng : Float → Float → Float)
    (g l : String → Option Float) (xs ys : List ExpressionMember)
    (st st' : List Float) (h : evalMembers rng g l xs st = .ok st') :
    evalMembers rng g l (xs ++ ys) st = evalMembers rng g l ys st' := by
  rw [newEvalMembers_append, h]

end NewExpr

/-! ## AST → postfix lowering (src/parser/mod.rs) -/

namespace Parser

/-- The `Opcode → BinaryOperator` part of `impl Into<ExpressionMember> for
Opcode`, src/parser/mod.rs lines 126-137. -/
def opcodeBin : Ast.Opcode → NewExpr.BinaryOperator
  | .plus => .plus
  | .minus => .minus
  | .multiply => .multiply
  | .divide => .divide
  | .pow => .pow

/-- `impl Into<ExpressionMember> for Opcode`, src/parser/mod.rs lines
126-137: every opcode becomes a binary operator member. -/
def opcodeInto (o : Ast.Opcode) : NewExpr.ExpressionMember :=
  .op (.binary (opcodeBin o))

/-- `impl Into<ExpressionMember> for Func`, src/parser/mod.rs lines
138-149. -/
def funcInto : Ast.Func → NewExpr.ExpressionMember
  | .sin => .op (.unary .sin)
  | .cos => .op (.unary .cos)
  | .min => .op (.binary .min)
  | .max => .op (.binary .max)
  | .rand => .op (.binary .rand)

mutual

/-- `Expr::convert`, src/parser/mod.rs lines 32-64: append the postfix
lowering of the expression to the accumulator `res` (the Rust `&mut Vec`).
A binary node lowers its left operand, then its right operand, then emits
the operator; a function lowers its arguments left-to-right then emits the
function's operator; unary plus emits nothing; unary minus lowers the
operand then emits the unary-minus operator. -/
def convertAcc : Ast.Expr → List NewExpr.ExpressionMember → List NewExpr.ExpressionMember
  | .number n, res => res ++ [.constant n]
  | .var loc name, res => res ++ [.var ⟨loc, name⟩]
  | .function f args, res => convertArgs args res ++ [funcInto f]
  | .op l o r, res => convertAcc r (convertAcc l res) ++ [opcodeInto o]
  | .signed .plus e, res => convertAcc e res
  | .signed .minus e, res => convertAcc e res ++ [.op (.unary .minus)]

/-- The `for arg in args` loop of the `Function` branch of `Expr::convert`,
src/parser/mod.rs lines 43-45. -/
def convertArgs : List Ast.Expr → List NewExpr.ExpressionMember → List NewExpr.ExpressionMember
  | [], res => res
  | a :: rest, res => convertArgs rest (convertAcc a res)

end

/-- `convert_expression`, src/parser/mod.rs lines 120-124: lower into a
fresh vector. -/
def convertList (e : Ast.Expr) : List NewExpr.ExpressionMember :=
  convertAcc e []

mutual

theorem convertAcc_append (e : Ast.Expr) (res : List NewExpr.ExpressionMember) :
    convertAcc e res = res ++ convertAcc e [] := by
  cases e with
  | number n => simp [convertAcc]
  | var loc name => simp [convertAcc]
  | function f args =>
    rw [convertAcc, convertAcc, convertArgs_append args res,
      convertArgs_append args []]
    simp
  | op l o r =>
    rw [convertAcc, convertAcc, convertAcc_append l res,
      convertAcc_append r (res ++ convertAcc l []),
      convertAcc_append r (convertAcc l [])]
    simp
  | signed s e' =>
    cases s with
    | plus =>
      rw [convertAcc, convertAcc, convertAcc_append e' res]
    | minus =>
      rw [convertAcc, convertAcc, convertAcc_append e' res]
      simp

theorem convertArgs_append (as : List Ast.Expr) (res : List NewExpr.ExpressionMember) :
    convertArgs as res = res ++ convertArgs as [] := by
  cases as with
  | nil => simp [convertArgs]
  | cons a rest =>
    rw [convertArgs, convertArgs, convertArgs_append rest (convertAcc a res),
      convertArgs_append rest (convertAcc a []), convertAcc_append a res]
    simp

end

/-- C3: lowering a binary node `Op(l, op, r)` emits the lowering of `l`,
then the lowering of `r`, then the operator member; the evaluator pops the
right operand first (`member2`) and the left operand second (`member1`)
and applies the operator with the left value as first argument; hence
evaluating the lowering of `Op(l, op, r)` applies the operator to the value
of `l` as first argument and the value of `r` as second argument. -/
theorem c3_binary_lowering_order (l r : Ast.Expr) (o : Ast.Opcode)
    (rng : Float → Float → Float) (g lo : String → Option Float)
    (st : List Float) (vl vr : Float) :
    convertList (.op l o r) = convertList l ++ convertList r ++ [opcodeInto o] ∧
    (∀ (rest : List NewExpr.ExpressionMember) (m1 m2 : Float) (st' : List Float),
      NewExpr.evalMembers rng g lo (.op (.binary (opcodeBin o)) :: rest) (m2 :: m1 :: st') =
        NewExpr.evalMembers rng g lo rest
          (NewExpr.applyBinary rng (opcodeBin o) m1 m2 :: st')) ∧
    (NewExpr.evalMembers rng g lo (convertList l) st = .ok (vl :: st) →
      NewExpr.evalMembers rng g lo (convertList r) (vl :: st) = .ok (vr :: vl :: st) →
      NewExpr.evalMembers rng g lo (convertList (.op l o r)) st =
        .ok (NewExpr.applyBinary rng (opcodeBin o) vl vr :: st)) := by
  have hsplit : convertList (.op l o r) =
      convertList l ++ convertList r ++ [opcodeInto o] := by
    rw [convertList, convertAcc, convertAcc_append r (convertAcc l []), convertList,
      convertList]
  refine ⟨hsplit, fun rest m1 m2 st' => rfl, fun hl hr => ?_⟩
  have h0 := NewExpr.evalMembers_append_ok rng g lo (convertList l)
    (convertList r) st (vl :: st) hl
  have h1 := NewExpr.evalMembers_append_ok rng g lo
    (convertList l ++ convertList r) [opcodeInto o] st (vr :: vl :: st)
    (h0.trans hr)
  rw [hsplit, h1]
  rfl

/-- Witness for C3: lowering and evaluating `1 + 2`. -/
theorem c3_binary_lowering_order_witness :
    NewExpr.evalMembers (fun a _ => a) (fun _ => none) (fun _ => none)
      (convertList (.op (.number 1.0) .plus (.number 2.0))) [] =
      .ok [NewExpr.applyBinary (fun a _ => a) (opcodeBin .plus) 1.0 2.0] :=
  (c3_binary_lowering_order (.number 1.0) (.number 2.0) .plus
    (fun a _ => a) (fun _ => none) (fun _ => none) [] 1.0 2.0).2.2 rfl rfl

end Parser

/-! ## Condition evaluator (src/conditions.rs) -/

namespace Conds

/-- `CompOp` from src/conditions.rs lines 16-24. -/
inductive CompOp where
  | superiorStrict
  | superiorEqual
  | inferiorStrict
  | inferiorEqual
  | equal
  | different
  deriving Repr, DecidableEq

/-- `LogicOp` from src/conditions.rs lines 26-30. -/
inductive LogicOp where
  | and
  | or
  deriving Repr, DecidableEq

/-- `Condition` from src/conditions.rs lines 9-14 (the
`ExpressionEvaluator` payloads are their member lists; `Exists` is spelled
`existsVar` since `exists` is reserved in Lean). -/
inductive Condition where
  | logic (l : Condition) (op : LogicOp) (r : Condition)
  | comparison (l : List NewExpr.ExpressionMember) (op : CompOp)
      (r : List NewExpr.ExpressionMember)
  | existsVar (name : String)

/-- Modelled from the spec: strict order of the `ordered_float` crate's
`OrderedFloat` wrapper (an external dependency, not among the sources),
a total order that places NaN above every other value (§4.5). -/
def ofLt (a b : Float) : Bool :=
  if a.isNaN then false else if b.isNaN then true else a < b

/-- Modelled from the spec: equality of `OrderedFloat` (NaN equals NaN). -/
def ofEq (a b : Float) : Bool :=
  (a.isNaN && b.isNaN) || a == b

/-- Modelled from the spec: non-strict order of `OrderedFloat`. -/
def ofLe (a b : Float) : Bool :=
  ofLt a b || ofEq a b

/-- `Condition::evaluate`, src/conditions.rs lines 32-61: `Logic` evaluates
the left condition and short-circuits on `(false, And)` and `(true, Or)`,
otherwise returns the evaluation of the right condition; `Comparison`
evaluates both expressions and compares them through the `OrderedFloat`
total order; `Exists` checks the global store only. -/
def Condition.evaluate (rng : Float → Float → Float)
    (g l : String → Option Float) : Condition → Except ExpressionError Bool
  | .logic cl op cr =>
    match Condition.evaluate rng g l cl with
    | .error e => .error e
    | .ok resultLeft =>
      match resultLeft, op with
      | false, .and => .ok false
      | true, .or => .ok true
      | false, .or => Condition.evaluate rng g l cr
      | true, .and => Condition.evaluate rng g l cr
  | .comparison le op re =>
    match NewExpr.evaluate rng le g l with
    | .error e => .error e
    | .ok lv =>
      match NewExpr.evaluate rng re g l with
      | .error e => .error e
      | .ok rv =>
        .ok (match op with
          | .superiorStrict => ofLt rv lv
          | .inferiorStrict => ofLt lv rv
          | .equal => ofEq lv rv
          | .different => !(ofEq lv rv)
          | .superiorEqual => ofLe rv lv
          | .inferiorEqual => ofLe lv rv)
  | .existsVar name => .ok (g name).isSome

/-- C4: `Logic(l, And, r)` short-circuits to `Ok(false)` when `l` evaluates
to `Ok(false)` — for every `r`, including one whose evaluation would fail —
and `Logic(l, Or, r)` short-circuits to `Ok(true)` when `l` evaluates to
`Ok(true)`; in the remaining `Ok` cases the result is the result of
evaluating `r`. -/
theorem c4_logic_short_circuit (rng : Float → Float → Float)
    (g lo : String → Option Float) (l r : Condition) :
    (Condition.evaluate rng g lo l = .ok false →
      Condition.evaluate rng g lo (.logic l .and r) = .ok false) ∧
    (Condition.evaluate rng g lo l = .ok true →
      Condition.evaluate rng g lo (.logic l .or r) = .ok true) ∧
    (Condition.evaluate rng g lo l = .ok true →
      Condition.evaluate rng g lo (.logic l .and r) =
        Condition.evaluate rng g lo r) ∧
    (Condition.evaluate rng g lo l = .ok false →
      Condition.evaluate rng g lo (.logic l .or r) =
        Condition.evaluate rng g lo r) := by
  refine ⟨fun h => ?_, fun h => ?_, fun h => ?_, fun h => ?_⟩ <;>
    simp [Condition.evaluate, h]

/-- Witness for C4: `exists(x) && ([] == [])` against an empty global store
evaluates to `Ok(false)` although its right condition would fail with
`InvalidExpression` if evaluated. -/
theorem c4_logic_short_circuit_witness :
    Condition.evaluate (fun a _ => a) (fun _ => none) (fun _ => none)
      (.logic (.existsVar "x") .and (.comparison [] .equal [])) = .ok false :=
  (c4_logic_short_circuit (fun a _ => a) (fun _ => none) (fun _ => none)
    (.existsVar "x") (.comparison [] .equal [])).1 rfl

end Conds

/-! ## Rules evaluator and scope stack (src/rules.rs) -/

namespace Rules

/-- One scope frame: the `HashMap<String, StoreType<T>>` of
src/rules.rs line 117, as an association list with at most one relevant
binding per key (lookup takes the first match, insert replaces the first
match or appends).  The `StoreType` payload of the missing newer
`expressions` module is modelled as `Float` per the spec (§3: a store maps
names to numbers). -/
abbrev Frame := List (String × Float)

/-- `HashMap::get` on a frame. -/
def Frame.getv : Frame → String → Option Float
  | [], _ => none
  | (k, v) :: rest, n => if k = n then some v else Frame.getv rest n

/-- In-place overwrite of an existing binding
(`mem::replace(e, value)` through `get_mut`, src/rules.rs line 151). -/
def Frame.replace : Frame → String → Float → Frame
  | [], _, _ => []
  | (k, v) :: rest, n, w =>
    if k = n then (k, w) :: rest else (k, v) :: Frame.replace rest n w

/-- `HashMap::insert` on a frame (src/rules.rs line 157). -/
def Frame.insert (f : Frame) (n : String) (w : Float) : Frame :=
  if (f.getv n).isSome then f.replace n w else f ++ [(n, w)]

/-- `Scopes` from src/rules.rs lines 116-118.  The Rust `Vec` keeps frames
outermost-first and both loops iterate with `.rev()`; here the list keeps
frames innermost-first so iteration is direct: `push` prepends an empty
frame, `pop` drops the head, and the `Vec`'s last frame (the innermost) is
the head. -/
structure Scopes where
  inner : List Frame

/-- The lookup loop of `Scopes::get_attribute` (src/rules.rs lines
140-146): first frame that binds the name wins, innermost first. -/
def scopesLookup : List Frame → String → Option Float
  | [], _ => none
  | f :: rest, n =>
    match f.getv n with
    | some v => some v
    | none => scopesLookup rest n

/-- `Scopes::get_attribute` (impl Store, src/rules.rs lines 140-146). -/
def Scopes.get_attribute (s : Scopes) (n : String) : Option Float :=
  scopesLookup s.inner n

/-- First phase of `Scopes::set_attribute` (src/rules.rs lines 149-153):
find the innermost frame that already binds the name, overwrite that
binding in place and return the previous value. -/
def scopesReplace : List Frame → String → Float → Option (List Frame × Float)
  | [], _, _ => none
  | f :: rest, n, v =>
    match f.getv n with
    | some old => some (f.replace n v :: rest, old)
    | none =>
      match scopesReplace rest n v with
      | some (rest', old) => some (f :: rest', old)
      | none => none

/-- `Scopes::set_attribute` (src/rules.rs lines 148-159).  The outer
`Option` models the `self.inner.last_mut().unwrap()` panic on an empty
scope stack; the inner `Except` mirrors the Rust `Result`, whose `Err`
variant the function never constructs. -/
def Scopes.set_attribute (s : Scopes) (n : String) (v : Float) :
    Option (Scopes × Except Unit (Option Float)) :=
  match scopesReplace s.inner n v with
  | some (fs, old) => some (⟨fs⟩, .ok (some old))
  | none =>
    match s.inner with
    | [] => none
    | top :: rest => some (⟨Frame.insert top n v :: rest⟩, .ok none)

/-- `Scopes::set_variable` (src/rules.rs lines 133-136): discard the
`Result` (`// Will never return Err`). -/
def Scopes.set_variable (s : Scopes) (n : String) (v : Float) : Option Scopes :=
  (s.set_attribute n v).map (fun p => p.1)

/-- `Scopes::push` (src/rules.rs lines 121-123). -/
def Scopes.push (s : Scopes) : Scopes :=
  ⟨[] :: s.inner⟩

/-- `Scopes::pop` (src/rules.rs lines 125-127). -/
def Scopes.pop (s : Scopes) : Scopes :=
  ⟨s.inner.tail⟩

/-- `Scopes::new` (src/rules.rs lines 129-131). -/
def Scopes.new : Scopes :=
  ⟨[]⟩

/-- The global stores appearing in the repository, as one sum: a
HashMap-backed store (examples/demo.rs and examples/repl.rs pass a
`HashMap`; its `set` inserts and returns the previous binding — modelled
from the spec §6 store contract, the defining impl being in the missing
newer `expressions` module) and the always-refusing store
`impl Opaque for ()` of src/rules.rs lines 18-31 (get yields `None`, set
fails). -/
inductive GStore where
  | map (vals : List (String × Float))
  | unit

/-- `get` of the global store. -/
def GStore.get : GStore → String → Option Float
  | .map vals, n => Frame.getv vals n
  | .unit, _ => none

/-- `set` of the global store: the map store inserts and returns the
previous value, the unit store refuses (src/rules.rs lines 24-30). -/
def GStore.set : GStore → String → Float → GStore × Except Unit (Option Float)
  | .map vals, n, v => (.map (Frame.insert vals n v), .ok (Frame.getv vals n))
  | .unit, _, _ => (.unit, .error ())

/-- `RulesError` from src/rules.rs lines 51-55. -/
inductive RulesError where
  | expression (e : ExpressionError)
  | cannotSetVariable (n : String)
  deriving Repr, DecidableEq

/-- `Instruction` from src/rules.rs lines 33-44: an assignment carries its
target `Variable` and compiled expression, an if-block carries its
condition and nested `RulesEvaluator` blocks (their instruction lists). -/
inductive Instruction where
  | assignment (v : NewExpr.Variable) (expression : List NewExpr.ExpressionMember)
  | ifBlock (condition : Conds.Condition) (thenBlock : List Instruction)
      (elseBlock : Option (List Instruction))

/-- The mutable state of one `RulesEvaluator::evaluate` call: the
caller-supplied global store and the scope stack. -/
structure EvalState where
  global : GStore
  scopes : Scopes

mutual

/-- One iteration of the `for instruction` loop of `evaluate_inner`
(src/rules.rs lines 77-105).  An assignment evaluates its expression
against (global, scopes); on success a local target goes through
`Scopes::set_variable` and a global target through the store's `set`,
whose failure becomes `CannotSetVariable(name)`.  An if-block evaluates
its condition and runs the chosen nested block with its own push/run/pop
(the body of `evaluate_inner`, in both branches).  The outer `Option`
propagates the `Scopes::set_attribute` panic; the returned state carries
the in-place mutations. -/
def execInstr (rng : Float → Float → Float) :
    Instruction → EvalState → Option (Except RulesError Unit × EvalState)
  | .assignment v expr, s =>
    match NewExpr.evaluate rng expr s.global.get s.scopes.get_attribute with
    | .error e => some (.error (.expression e), s)
    | .ok res =>
      if v.loc then
        match s.scopes.set_variable v.name res with
        | none => none
        | some sc => some (.ok (), { s with scopes := sc })
      else
        match s.global.set v.name res with
        | (g', .error _) =>
          some (.error (.cannotSetVariable v.name), { s with global := g' })
        | (g', .ok _) => some (.ok (), { s with global := g' })
  | .ifBlock c t (some e), s =>
    match c.evaluate rng s.global.get s.scopes.get_attribute with
    | .error err => some (.error (.expression err), s)
    | .ok true =>
      match runInstrs rng t { s with scopes := s.scopes.push } with
      | none => none
      | some (.ok _, s') => some (.ok (), { s' with scopes := s'.scopes.pop })
      | some (.error er, s') => some (.error er, s')
    | .ok false =>
      match runInstrs rng e { s with scopes := s.scopes.push } with
      | none => none
      | some (.ok _, s') => some (.ok (), { s' with scopes := s'.scopes.pop })
      | some (.error er, s') => some (.error er, s')
  | .ifBlock c t none, s =>
    match c.evaluate rng s.global.get s.scopes.get_attribute with
    | .error err => some (.error (.expression err), s)
    | .ok true =>
      match runInstrs rng t { s with scopes := s.scopes.push } with
      | none => none
      | some (.ok _, s') => some (.ok (), { s' with scopes := s'.scopes.pop })
      | some (.error er, s') => some (.error er, s')
    | .ok false => some (.ok (), s)

/-- The instruction loop of `evaluate_inner` (src/rules.rs lines 76-106):
run instructions in order, returning at the first error (via `try!`). -/
def runInstrs (rng : Float → Float → Float) :
    List Instruction → EvalState → Option (Except RulesError Unit × EvalState)
  | [], s => some (.ok (), s)
  | i :: rest, s =>
    match execInstr rng i s with
    | none => none
    | some (.ok _, s') => runInstrs rng rest s'
    | some (.error e, s') => some (.error e, s')

end

/-- `RulesEvaluator::evaluate_inner` (src/rules.rs lines 73-109): push a
fresh scope, run the instruction list, pop the scope — the pop is reached
only when no instruction failed, an error returns early through `try!`. -/
def evalInner (rng : Float → Float → Float) (prog : List Instruction)
    (s : EvalState) : Option (Except RulesError Unit × EvalState) :=
  match runInstrs rng prog { s with scopes := s.scopes.push } with
  | none => none
  | some (.ok _, s') => some (.ok (), { s' with scopes := s'.scopes.pop })
  | some (.error e, s') => some (.error e, s')

/-- `RulesEvaluator::evaluate` (src/rules.rs lines 64-67): evaluate the
program with a fresh empty scope stack against the caller's global
store. -/
def evaluateRules (rng : Float → Float → Float) (prog : List Instruction)
    (g : GStore) : Option (Except RulesError Unit × EvalState) :=
  evalInner rng prog { global := g, scopes := Scopes.new }

theorem scopesLookup_split (n : String) (pre : List Frame) (f : Frame)
    (post : List Frame) (hpre : ∀ f' ∈ pre, Frame.getv f' n = none)
    (old : Float) (hf : Frame.getv f n = some old) :
    scopesLookup (pre ++ f :: post) n = some old := by
  induction pre with
  | nil => simp [scopesLookup, hf]
  | cons p rest ih =>
    have hp : Frame.getv p n = none := hpre p (by simp)
    have := ih (fun f' hm => hpre f' (by simp [hm]))
    simp [scopesLookup, hp, this]

theorem scopesLookup_none (n : String) (fs : List Frame)
    (h : ∀ f' ∈ fs, Frame.getv f' n = none) :
    scopesLookup fs n = none := by
  induction fs with
  | nil => rfl
  | cons p rest ih =>
    have hp : Frame.getv p n = none := h p (by simp)
    have := ih (fun f' hm => h f' (by simp [hm]))
    simp [scopesLookup, hp, this]

theorem scopesReplace_split (n : String) (v : Float) (pre : List Frame)
    (f : Frame) (post : List Frame)
    (hpre : ∀ f' ∈ pre, Frame.getv f' n = none)
    (old : Float) (hf : Frame.getv f n = some old) :
    scopesReplace (pre ++ f :: post) n v =
      some (pre ++ Frame.replace f n v :: post, old) := by
  induction pre with
  | nil => simp [scopesReplace, hf]
  | cons p rest ih =>
    have hp : Frame.getv p n = none := hpre p (by simp)
    have := ih (fun f' hm => hpre f' (by simp [hm]))
    simp [scopesReplace, hp, this]

theorem scopesReplace_none (n : String) (v : Float) (fs : List Frame)
    (h : ∀ f' ∈ fs, Frame.getv f' n = none) :
    scopesReplace fs n v = none := by
  induction fs with
  | nil => rfl
  | cons p rest ih =>
    have hp : Frame.getv p n = none := h p (by simp)
    have := ih (fun f' hm => h f' (by simp [hm]))
    simp [scopesReplace, hp, this]

/-- C1: the scope stack's read/write rule.  Frames are listed innermost
first.  If the innermost frame `f` that binds the name is preceded (on the
inner side) only by frames that do not bind it, then `get_attribute`
returns `f`'s binding, and `set_attribute` overwrites that binding in
place — leaving every other frame untouched and creating nothing — and
returns the previous value.  If no active frame binds the name,
`get_attribute` returns `None` and `set_attribute` creates the binding in
the innermost frame only. -/
theorem c1_scope_stack_read_write (s : Scopes) (n : String) (v : Float) :
    (∀ (pre : List Frame) (f : Frame) (post : List Frame),
      s.inner = pre ++ f :: post →
      (∀ f' ∈ pre, Frame.getv f' n = none) →
      ∀ old, Frame.getv f n = some old →
        Scopes.get_attribute s n = some old ∧
        Scopes.set_attribute s n v =
          some (⟨pre ++ Frame.replace f n v :: post⟩, .ok (some old))) ∧
    ((∀ f' ∈ s.inner, Frame.getv f' n = none) →
      Scopes.get_attribute s n = none ∧
      (∀ top rest, s.inner = top :: rest →
        Scopes.set_attribute s n v =
          some (⟨Frame.insert top n v :: rest⟩, .ok none))) := by
  constructor
  · intro pre f post hs hpre old hf
    constructor
    · rw [Scopes.get_attribute, hs]
      exact scopesLookup_split n pre f post hpre old hf
    · rw [Scopes.set_attribute, hs,
        scopesReplace_split n v pre f post hpre old hf]
  · intro hnone
    constructor
    · rw [Scopes.get_attribute]
      exact scopesLookup_none n s.inner hnone
    · intro top rest hs
      rw [Scopes.set_attribute, scopesReplace_none n v s.inner hnone, hs]

/-- Witness for C1, on the scope stack `[[y ↦ 2], [x ↦ 3]]` (innermost
frame first): reading `x` finds the outer binding, writing `x` overwrites
it in place and returns the previous value `3`; reading and writing the
unbound `z` falls through to `None` and creates the binding in the
innermost frame. -/
theorem c1_scope_stack_read_write_witness :
    Scopes.get_attribute ⟨[[("y", 2.0)], [("x", 3.0)]]⟩ "x" = some 3.0 ∧
    Scopes.set_attribute ⟨[[("y", 2.0)], [("x", 3.0)]]⟩ "x" 5.0 =
      some (⟨[[("y", 2.0)], [("x", 5.0)]]⟩, .ok (some 3.0)) ∧
    Scopes.get_attribute ⟨[[("y", 2.0)], [("x", 3.0)]]⟩ "z" = none ∧
    Scopes.set_attribute ⟨[[("y", 2.0)], [("x", 3.0)]]⟩ "z" 7.0 =
      some (⟨[[("y", 2.0), ("z", 7.0)], [("x", 3.0)]]⟩, .ok none) := by
  have h1 := (c1_scope_stack_read_write ⟨[[("y", 2.0)], [("x", 3.0)]]⟩ "x" 5.0).1
    [[("y", 2.0)]] [("x", 3.0)] [] rfl
    (by intro f' hm; simp at hm; subst hm; rfl) 3.0 rfl
  have h2 := (c1_scope_stack_read_write ⟨[[("y", 2.0)], [("x", 3.0)]]⟩ "z" 7.0).2
    (by intro f' hm; simp at hm; rcases hm with hm | hm <;> subst hm <;> rfl)
  exact ⟨h1.1, h1.2, (h2.1), h2.2 [("y", 2.0)] [[("x", 3.0)]] rfl⟩

theorem scopesReplace_length (n : String) (v : Float) :
    ∀ (fs fs' : List Frame) (old : Float),
      scopesReplace fs n v = some (fs', old) → fs'.length = fs.length := by
  intro fs
  induction fs with
  | nil => intro fs' old h; cases h
  | cons f rest ih =>
    intro fs' old h
    rw [scopesReplace] at h
    cases hf : Frame.getv f n with
    | some o =>
      rw [hf] at h
      injection h with h
      cases h
      simp
    | none =>
      rw [hf] at h
      cases hrec : scopesReplace rest n v with
      | none => rw [hrec] at h; cases h
      | some p =>
        rw [hrec] at h
        injection h with h
        cases h
        simp [ih p.1 p.2 hrec]

/-- `set_attribute` on a non-empty scope stack always returns, always with
`Ok`, and preserves the number of frames. -/
theorem set_attribute_total (s : Scopes) (n : String) (v : Float)
    (h : s.inner ≠ []) :
    ∃ sc old, s.set_attribute n v = some (sc, .ok old) ∧
      sc.inner.length = s.inner.length := by
  rw [Scopes.set_attribute]
  cases hrep : scopesReplace s.inner n v with
  | some p =>
    exact ⟨⟨p.1⟩, some p.2, rfl, scopesReplace_length n v s.inner p.1 p.2 hrep⟩
  | none =>
    cases hs : s.inner with
    | nil => exact absurd hs h
    | cons top rest => exact ⟨⟨Frame.insert top n v :: rest⟩, none, rfl, by simp [hs]⟩

/-- `set_attribute` never returns `Err`: whenever it returns at all, the
`Result` component is `Ok` (of the previous binding, if any). -/
theorem set_attribute_no_err (s : Scopes) (n : String) (v : Float)
    (p : Scopes × Except Unit (Option Float)) (h : s.set_attribute n v = some p) :
    ∃ old, p.2 = .ok old := by
  rw [Scopes.set_attribute] at h
  cases hrep : scopesReplace s.inner n v with
  | some q =>
    rw [hrep] at h
    injection h with h
    exact ⟨some q.2, by rw [← h]⟩
  | none =>
    rw [hrep] at h
    cases hs : s.inner with
    | nil => rw [hs] at h; cases h
    | cons top rest =>
      rw [hs] at h
      injection h with h
      exact ⟨none, by rw [← h]⟩

theorem set_variable_total (s : Scopes) (n : String) (v : Float)
    (h : s.inner ≠ []) :
    ∃ sc, s.set_variable n v = some sc ∧ sc.inner.length = s.inner.length := by
  obtain ⟨sc, old, hset, hlen⟩ := set_attribute_total s n v h
  exact ⟨sc, by rw [Scopes.set_variable, hset]; rfl, hlen⟩

/-- A rejected global `set` leaves the store unchanged (only the refusing
unit store can reject). -/
theorem gstore_set_error (g : GStore) (n : String) (v : Float)
    (h : (g.set n v).2 = .error ()) : (g.set n v).1 = g := by
  cases g with
  | map vals => rw [GStore.set] at h; cases h
  | unit => rfl

mutual

/-- `execInstr` from a state with a non-empty scope stack never panics,
never shrinks the scope stack, and restores its exact depth on success. -/
theorem execInstr_progress (rng : Float → Float → Float) (i : Instruction)
    (s : EvalState) (h : s.scopes.inner ≠ []) :
    ∃ res st, execInstr rng i s = some (res, st) ∧
      s.scopes.inner.length ≤ st.scopes.inner.length ∧
      (res = .ok () → st.scopes.inner.length = s.scopes.inner.length) := by
  cases i with
  | assignment v expr =>
    cases hev : NewExpr.evaluate rng expr s.global.get s.scopes.get_attribute with
    | error e =>
      exact ⟨.error (.expression e), s, by rw [execInstr, hev], le_refl _, fun _ => rfl⟩
    | ok res =>
      cases hv : v.loc with
      | true =>
        obtain ⟨sc, hsc, hlen⟩ := set_variable_total s.scopes v.name res h
        refine ⟨.ok (), { s with scopes := sc }, ?_, by simp [hlen], fun _ => by simp [hlen]⟩
        rw [execInstr, hev]
        simp [hv, hsc]
      | false =>
        rcases hst : s.global.set v.name res with ⟨g', r⟩
        cases r with
        | error u =>
          refine ⟨.error (.cannotSetVariable v.name), { s with global := g' }, ?_,
            le_refl _, nofun⟩
          rw [execInstr, hev]
          simp [hv, hst]
        | ok old =>
          refine ⟨.ok (), { s with global := g' }, ?_, le_refl _, fun _ => rfl⟩
          rw [execInstr, hev]
          simp [hv, hst]
  | ifBlock c t els =>
    cases els with
    | some e =>
      cases hc : c.evaluate rng s.global.get s.scopes.get_attribute with
      | error err =>
        exact ⟨.error (.expression err), s, by rw [execInstr, hc], le_refl _, fun _ => rfl⟩
      | ok b =>
        cases b with
        | true =>
          obtain ⟨res, st', hrun, hle, hok⟩ := runInstrs_progress rng t
            { s with scopes := s.scopes.push } (by simp [Scopes.push])
          simp [Scopes.push] at hle hok
          cases res with
          | ok u =>
            have hlen := hok rfl
            refine ⟨.ok (), { st' with scopes := st'.scopes.pop }, ?_, ?_, fun _ => ?_⟩
            · rw [execInstr, hc, hrun]
            · simp [Scopes.pop]
              omega
            · simp [Scopes.pop]
              omega
          | error er =>
            refine ⟨.error er, st', ?_, by omega, nofun⟩
            rw [execInstr, hc, hrun]
        | false =>
          obtain ⟨res, st', hrun, hle, hok⟩ := runInstrs_progress rng e
            { s with scopes := s.scopes.push } (by simp [Scopes.push])
          simp [Scopes.push] at hle hok
          cases res with
          | ok u =>
            have hlen := hok rfl
            refine ⟨.ok (), { st' with scopes := st'.scopes.pop }, ?_, ?_, fun _ => ?_⟩
            · rw [execInstr, hc, hrun]
            · simp [Scopes.pop]
              omega
            · simp [Scopes.pop]
              omega
          | error er =>
            refine ⟨.error er, st', ?_, by omega, nofun⟩
            rw [execInstr, hc, hrun]
    | none =>
      cases hc : c.evaluate rng s.global.get s.scopes.get_attribute with
      | error err =>
        exact ⟨.error (.expression err), s, by rw [execInstr, hc], le_refl _, fun _ => rfl⟩
      | ok b =>
        cases b with
        | true =>
          obtain ⟨res, st', hrun, hle, hok⟩ := runInstrs_progress rng t
            { s with scopes := s.scopes.push } (by simp [Scopes.push])
          simp [Scopes.push] at hle hok
          cases res with
          | ok u =>
            have hlen := hok rfl
            refine ⟨.ok (), { st' with scopes := st'.scopes.pop }, ?_, ?_, fun _ => ?_⟩
            · rw [execInstr, hc, hrun]
            · simp [Scopes.pop]
              omega
            · simp [Scopes.pop]
              omega
          | error er =>
            refine ⟨.error er, st', ?_, by omega, nofun⟩
            rw [execInstr, hc, hrun]
        | false =>
          exact ⟨.ok (), s, by rw [execInstr, hc], le_refl _, fun _ => rfl⟩

/-- `runInstrs` from a state with a non-empty scope stack never panics,
never shrinks the scope stack, and preserves its exact depth on success. -/
theorem runInstrs_progress (rng : Float → Float → Float) (l : List Instruction)
    (s : EvalState) (h : s.scopes.inner ≠ []) :
    ∃ res st, runInstrs rng l s = some (res, st) ∧
      s.scopes.inner.length ≤ st.scopes.inner.length ∧
      (res = .ok () → st.scopes.inner.length = s.scopes.inner.length) := by
  cases l with
  | nil => exact ⟨.ok (), s, rfl, le_refl _, fun _ => rfl⟩
  | cons i rest =>
    obtain ⟨res, st, hex, hle, hok⟩ := execInstr_progress rng i s h
    cases res with
    | ok u =>
      have hlen := hok rfl
      have hne : st.scopes.inner ≠ [] := by
        intro hnil
        rw [hnil] at hlen
        simp at hlen
        exact h (List.length_eq_zero.mp hlen.symm)
      obtain ⟨res', st', hrun, hle', hok'⟩ := runInstrs_progress rng rest st hne
      refine ⟨res', st', ?_, by omega, fun he => by rw [hok' he, hlen]⟩
      rw [runInstrs, hex]
      exact hrun
    | error e =>
      refine ⟨.error e, st, ?_, hle, nofun⟩
      rw [runInstrs, hex]

end

/-- C9 counterexample: an `evaluate_inner` call whose block fails does not
pop the frame it pushed — entered with scope depth 0, it returns an error
with depth 1, refuting "same depth on entry and exit for every outcome". -/
theorem c9_scope_depth_counterexample :
    evalInner (fun a _ => a) [.assignment ⟨true, "x"⟩ []] ⟨.map [], ⟨[]⟩⟩ =
      some (.error (.expression (.invalidExpression
        "No result at the end of the expression")), ⟨.map [], ⟨[[]]⟩⟩) ∧
    (⟨.map [], ⟨[[]]⟩⟩ : EvalState).scopes.inner.length ≠
      (⟨.map [], ⟨[]⟩⟩ : EvalState).scopes.inner.length :=
  ⟨rfl, by decide⟩

/-- C9 (amended): a call to `evaluate_inner` that returns `Ok` leaves the
scope stack at exactly the depth it had on entry; a call that returns
`Err` returns early without popping and leaves the stack strictly deeper
than on entry. -/
theorem c9_scope_depth_on_exit (rng : Float → Float → Float)
    (prog : List Instruction) (s : EvalState) (res : Except RulesError Unit)
    (st : EvalState) (h : evalInner rng prog s = some (res, st)) :
    (res = .ok () → st.scopes.inner.length = s.scopes.inner.length) ∧
    (∀ e, res = .error e → st.scopes.inner.length > s.scopes.inner.length) := by
  obtain ⟨res', st', hrun, hle, hok⟩ := runInstrs_progress rng prog
    { s with scopes := s.scopes.push } (by simp [Scopes.push])
  simp [Scopes.push] at hle hok
  rw [evalInner, hrun] at h
  cases res' with
  | ok u =>
    have hlen := hok rfl
    injection h with h
    cases h
    constructor
    · intro _
      simp [Scopes.pop]
      omega
    · intro e he
      cases he
  | error er =>
    injection h with h
    cases h
    constructor
    · intro he
      cases he
    · intro e _
      omega

/-- Witness for C9: a successful block (a local assignment) restores the
entry depth of the scope stack. -/
theorem c9_scope_depth_on_exit_witness :
    evalInner (fun a _ => a) [.assignment ⟨true, "x"⟩ [.constant 2.0]]
        ⟨.map [], ⟨[[("a", 1.0)], []]⟩⟩ =
      some (.ok (), ⟨.map [], ⟨[[("a", 1.0)], []]⟩⟩) ∧
    (⟨.map [], ⟨[[("a", 1.0)], []]⟩⟩ : EvalState).scopes.inner.length =
      (⟨.map [], ⟨[[("a", 1.0)], []]⟩⟩ : EvalState).scopes.inner.length :=
  ⟨rfl, (c9_scope_depth_on_exit (fun a _ => a)
    [.assignment ⟨true, "x"⟩ [.constant 2.0]] ⟨.map [], ⟨[[("a", 1.0)], []]⟩⟩
    (.ok ()) ⟨.map [], ⟨[[("a", 1.0)], []]⟩⟩ rfl).1 rfl⟩

/-- C10: `Scopes::set_attribute` never returns `Err`; on a non-empty scope
stack it never panics; and `RulesEvaluator::evaluate` pushes a frame before
any instruction runs and every block keeps the stack non-empty, so the
create-in-innermost-scope unwrap is always safe and whole-program
evaluation never panics, for any program and any global store. -/
theorem c10_set_attribute_safe (s : Scopes) (n : String) (v : Float)
    (p : Scopes × Except Unit (Option Float)) (rng : Float → Float → Float)
    (prog : List Instruction) (g : GStore) :
    (s.set_attribute n v = some p → ∃ old, p.2 = .ok old) ∧
    (s.inner ≠ [] → ∃ q, s.set_attribute n v = some q) ∧
    (∃ r, evaluateRules rng prog g = some r) := by
  refine ⟨fun h => set_attribute_no_err s n v p h, fun hne => ?_, ?_⟩
  · obtain ⟨sc, old, hset, _⟩ := set_attribute_total s n v hne
    exact ⟨(sc, .ok old), hset⟩
  · obtain ⟨res, st, hrun, _, _⟩ := runInstrs_progress rng prog
      ⟨g, Scopes.new.push⟩ (by simp [Scopes.push])
    have hrew : evaluateRules rng prog g =
        (match runInstrs rng prog ⟨g, Scopes.new.push⟩ with
        | none => none
        | some (.ok _, s') => some (.ok (), { s' with scopes := s'.scopes.pop })
        | some (.error e, s') => some (.error e, s')) := rfl
    rw [hrew, hrun]
    cases res with
    | ok u => exact ⟨(.ok (), { st with scopes := st.scopes.pop }), rfl⟩
    | error e => exact ⟨(.error e, st), rfl⟩

/-- Witness for C10: a concrete one-frame stack accepts a write, and a
concrete one-assignment program evaluates without panicking. -/
theorem c10_set_attribute_safe_witness :
    (∃ old, ((⟨[[("x", 1.0)]]⟩, Except.ok none) :
      Scopes × Except Unit (Option Float)).2 = .ok old) ∧
    (∃ q, Scopes.set_attribute ⟨[[]]⟩ "x" 1.0 = some q) ∧
    (∃ r, evaluateRules (fun a _ => a)
      [.assignment ⟨true, "x"⟩ [.constant 1.0]] (.map []) = some r) := by
  have h := c10_set_attribute_safe ⟨[[]]⟩ "x" 1.0 (⟨[[("x", 1.0)]]⟩, .ok none)
    (fun a _ => a) [.assignment ⟨true, "x"⟩ [.constant 1.0]] (.map [])
  exact ⟨h.1 rfl, h.2.1 (by simp), h.2.2⟩

theorem runInstrs_append_ok (rng : Float → Float → Float)
    (xs ys : List Instruction) (s s' : EvalState)
    (h : runInstrs rng xs s = some (.ok (), s')) :
    runInstrs rng (xs ++ ys) s = runInstrs rng ys s' := by
  induction xs generalizing s with
  | nil =>
    rw [runInstrs] at h
    injection h with h
    cases h
    rfl
  | cons i rest ih =>
    rw [runInstrs] at h
    rw [List.cons_append, runInstrs]
    cases hex : execInstr rng i s with
    | none => rw [hex] at h; cases h
    | some p =>
      rcases p with ⟨r, st⟩
      cases r with
      | ok u =>
        rw [hex] at h
        exact ih st h
      | error er =>
        rw [hex] at h
        simp at h

/-- C5: evaluation stops at the first failing instruction.  If the
instructions before `bad` all succeed, producing state `s1`, and `bad`
fails there with error `e` and state `s2`, then the whole list fails with
`e` in state `s2` — independently of the instructions after `bad`, which
are never executed.  A failing assignment leaves the global store exactly
as the instructions before it left it, and a global assignment whose
expression evaluates but whose store write is rejected fails precisely
with `CannotSetVariable` carrying the variable's name. -/
theorem c5_first_error_stops (rng : Float → Float → Float)
    (pre : List Instruction) (bad : Instruction) (post : List Instruction)
    (s s1 s2 : EvalState) (e : RulesError)
    (h1 : runInstrs rng pre s = some (.ok (), s1))
    (h2 : execInstr rng bad s1 = some (.error e, s2)) :
    runInstrs rng (pre ++ bad :: post) s = some (.error e, s2) ∧
    (∀ v expr, bad = .assignment v expr → s2.global = s1.global) ∧
    (∀ v expr val, bad = .assignment v expr → v.loc = false →
      NewExpr.evaluate rng expr s1.global.get s1.scopes.get_attribute = .ok val →
      e = .cannotSetVariable v.name ∧
        (s1.global.set v.name val).2 = .error ()) := by
  refine ⟨?_, ?_, ?_⟩
  · rw [runInstrs_append_ok rng pre (bad :: post) s s1 h1, runInstrs, h2]
  · rintro v expr rfl
    cases hev : NewExpr.evaluate rng expr s1.global.get s1.scopes.get_attribute with
    | error e' =>
      have hchar : execInstr rng (.assignment v expr) s1 =
          some (.error (.expression e'), s1) := by
        rw [execInstr, hev]
      rw [hchar] at h2
      injection h2 with h2
      cases h2
      rfl
    | ok res =>
      cases hv : v.loc with
      | true =>
        cases hsv : s1.scopes.set_variable v.name res with
        | none =>
          have hchar : execInstr rng (.assignment v expr) s1 = none := by
            simp [execInstr, hev, hv, hsv]
          rw [hchar] at h2
          cases h2
        | some sc =>
          have hchar : execInstr rng (.assignment v expr) s1 =
              some (.ok (), { s1 with scopes := sc }) := by
            simp [execInstr, hev, hv, hsv]
          rw [hchar] at h2
          simp at h2
      | false =>
        rcases hset : s1.global.set v.name res with ⟨g', r⟩
        cases r with
        | ok old =>
          have hchar : execInstr rng (.assignment v expr) s1 =
              some (.ok (), { s1 with global := g' }) := by
            simp [execInstr, hev, hv, hset]
          rw [hchar] at h2
          simp at h2
        | error u =>
          have hchar : execInstr rng (.assignment v expr) s1 =
              some (.error (.cannotSetVariable v.name), { s1 with global := g' }) := by
            simp [execInstr, hev, hv, hset]
          rw [hchar] at h2
          injection h2 with h2
          cases h2
          have hg := gstore_set_error s1.global v.name res (by rw [hset])
          rw [hset] at hg
          exact hg
  · rintro v expr val rfl hloc hev
    rcases hset : s1.global.set v.name val with ⟨g', r⟩
    cases r with
    | ok old =>
      have hchar : execInstr rng (.assignment v expr) s1 =
          some (.ok (), { s1 with global := g' }) := by
        simp [execInstr, hev, hloc, hset]
      rw [hchar] at h2
      simp at h2
    | error u =>
      have hchar : execInstr rng (.assignment v expr) s1 =
          some (.error (.cannotSetVariable v.name), { s1 with global := g' }) := by
        simp [execInstr, hev, hloc, hset]
      rw [hchar] at h2
      injection h2 with h2
      cases h2
      exact ⟨rfl, rfl⟩

/-- Witness for C5: `$a = 1;` succeeds, the second assignment's expression
is malformed and fails, and `$c = 2;` after it is never executed: the run
stops with the expression error and the store still holds only `a`. -/
theorem c5_first_error_stops_witness :
    runInstrs (fun a _ => a)
      ([.assignment ⟨false, "a"⟩ [.constant 1.0]] ++
        .assignment ⟨false, "b"⟩ [] :: [.assignment ⟨false, "c"⟩ [.constant 2.0]])
      ⟨.map [], ⟨[]⟩⟩ =
      some (.error (.expression (.invalidExpression
        "No result at the end of the expression")), ⟨.map [("a", 1.0)], ⟨[]⟩⟩) :=
  (c5_first_error_stops (fun a _ => a)
    [.assignment ⟨false, "a"⟩ [.constant 1.0]]
    (.assignment ⟨false, "b"⟩ [])
    [.assignment ⟨false, "c"⟩ [.constant 2.0]]
    ⟨.map [], ⟨[]⟩⟩ ⟨.map [("a", 1.0)], ⟨[]⟩⟩ ⟨.map [("a", 1.0)], ⟨[]⟩⟩
    (.expression (.invalidExpression "No result at the end of the expression"))
    rfl rfl).1

end Rules

end Aariba
